import Mathlib

/-!
# Annotation boundary of an `MCInst` (`bolt/include/bolt/Core/MCPlus.h`)

A shallow embedding of the helpers of `MCPlus.h`:

* `MCAnnotation.Kind`, the enumeration of annotation indices;
* `MCSimpleAnnotation`, the leaf annotation storing a payload by value;
* `getNumPrimeOperands`, the backward scan that finds where the annotation
  operands of an instruction start;
* `primeOperands`, the iterator range over the operands before that boundary.

The header only declares inline functions over `MCInst` and `MCOperand`; those
two classes are declared in `llvm/MC/MCInst.h`, so the operand variant and the
operand list are modelled here from the data model of the specification.

Machine integers: `unsigned` and `signed` are 32 bits wide.  The loop index of
the scanner is initialised with the `unsigned` difference `getNumOperands() - 1`
converted to `signed`; both steps are modelled with explicit wrap-around.
-/

namespace MCPlus

/-! ## Operands and instructions -/

/-- Modelled from the spec: the operand variant `MCOperand` of an instruction record, which
`MCPlus.h` uses but does not declare.  An operand is a register, a 64-bit signed immediate, a
floating-point immediate, a symbolic expression or an operand of type `kInst`.  A `kInst`
operand holds a pointer to a nested instruction: `Inst none` is the operand with an empty
(`nullptr`) value, the sub-instruction marker, and `Inst (some p)` is a handle to a nested
instruction. -/
inductive MCOperand where
  | Reg (RegNo : Nat)
  | Imm (Val : Int)
  | FPImm (Bits : Nat)
  | Expr (Ref : Nat)
  | Inst (Val : Option Nat)
  deriving DecidableEq

namespace MCOperand

/-- The type predicate `isInst()`: the operand is of type `kInst`. -/
def isInst : MCOperand → Bool
  | Inst _ => true
  | _ => false

/-- The type predicate `isImm()`: the operand is of type `kImmediate`. -/
def isImm : MCOperand → Bool
  | Imm _ => true
  | _ => false

/-- The accessor `getInst()` of a `kInst` operand: the nested-instruction pointer, `none` for
`nullptr` (and for an operand that is not of type `kInst`). -/
def getInst : MCOperand → Option Nat
  | Inst p => p
  | _ => none

end MCOperand

/-- Modelled from the spec: the instruction record `MCInst`, an opcode with an ordered sequence
of operands (the class is declared in `llvm/MC/MCInst.h`). -/
structure MCInst where
  Opcode : Nat
  Operands : List MCOperand
  deriving DecidableEq

namespace MCInst

/-- The operand count, `getNumOperands()`. -/
def getNumOperands (Inst : MCInst) : Nat := Inst.Operands.length

/-- The operand at position `I`, `getOperand(I)`; `none` when `I` is past the end of the operand
list, where the C++ access is out of bounds. -/
def getOperand (Inst : MCInst) (I : Nat) : Option MCOperand := Inst.Operands[I]?

/-- Appending one operand, `addOperand(Op)`. -/
def addOperand (Inst : MCInst) (Op : MCOperand) : MCInst :=
  { Inst with Operands := Inst.Operands ++ [Op] }

/-- Erasing the operand at position `I`, `erase(begin() + I)`: the later operands move down by
one position. -/
def erase (Inst : MCInst) (I : Nat) : MCInst :=
  { Inst with Operands := Inst.Operands.eraseIdx I }

end MCInst

/-! ## Machine integers -/

/-- Number of values of the 32-bit `unsigned` type. -/
def UINT_RANGE : Nat := 2 ^ 32

/-- Subtraction of `unsigned` values, modulo `2 ^ 32`. -/
def unsignedSub (a b : Nat) : Nat := ((UINT_RANGE - b % UINT_RANGE) + a) % UINT_RANGE

/-- Conversion of an `unsigned` value to `signed`: values from `2 ^ 31` on wrap to the
negative numbers. -/
def toSigned (u : Nat) : Int :=
  if u % UINT_RANGE < 2 ^ 31 then ((u % UINT_RANGE : Nat) : Int)
  else ((u % UINT_RANGE : Nat) : Int) - (UINT_RANGE : Int)

/-! ## The boundary scanner -/

/-- The body of the `for` loop of `getNumPrimeOperands`, indexed by the number `I + 1` of
operands still to inspect: `scanDown Inst (I + 1)` is the loop entered with index `I >= 0`, and
`scanDown Inst 0` is the loop left with `I = -1`, which falls through to the final
`return Inst.getNumOperands()`.  The result is `none` if an operand is read out of bounds. -/
def scanDown (Inst : MCInst) : Nat → Option Nat
  | 0 => some Inst.getNumOperands
  | I + 1 =>
    match Inst.getOperand I with
    | none => none
    | some Op =>
      if Op.isInst then some I
      else if !Op.isImm then some Inst.getNumOperands
      else scanDown Inst I

/-- The function `getNumPrimeOperands`: the number of operands of `Inst` excluding the operands
that represent annotations.  The index starts at `signed I = Inst.getNumOperands() - 1` and the
loop runs while `I >= 0`. -/
def getNumPrimeOperands (Inst : MCInst) : Option Nat :=
  let I : Int := toSigned (unsignedSub Inst.getNumOperands 1)
  if 0 ≤ I then scanDown Inst (I.toNat + 1) else some Inst.getNumOperands

/-! ## The prime-operand view -/

/-- An `iterator_range` over the operands of an instruction, given by the positions of its two
iterators: `first` is where the range begins, `last` is one past where it ends. -/
structure iterator_range where
  first : Nat
  last : Nat
  deriving DecidableEq

/-- The operands an `iterator_range` visits in `Inst`, in iteration order. -/
def iterator_range.operands (R : iterator_range) (Inst : MCInst) : List MCOperand :=
  (Inst.Operands.drop R.first).take (R.last - R.first)

/-- The iterator `Inst.begin() + N`, as a position; `none` when it would lie past `Inst.end()`. -/
def beginPlus (Inst : MCInst) (N : Nat) : Option Nat :=
  if N ≤ Inst.getNumOperands then some N else none

/-- The overload `primeOperands(MCInst &)`: the range from `Inst.begin()` to
`Inst.begin() + getNumPrimeOperands(Inst)` of mutable iterators. -/
def primeOperands (Inst : MCInst) : Option iterator_range :=
  match getNumPrimeOperands Inst with
  | none => none
  | some N =>
    match beginPlus Inst 0, beginPlus Inst N with
    | some B, some E => some ⟨B, E⟩
    | _, _ => none

/-- The overload `primeOperands(const MCInst &)`: the same range, of constant iterators. -/
def primeOperandsConst (Inst : MCInst) : Option iterator_range :=
  match getNumPrimeOperands Inst with
  | none => none
  | some N =>
    match beginPlus Inst 0, beginPlus Inst N with
    | some B, some E => some ⟨B, E⟩
    | _, _ => none

/-! ## Annotation kinds -/

namespace MCAnnotation

/-- The enumeration `MCAnnotation::Kind`. -/
inductive Kind where
  | kEHLandingPad
  | kEHAction
  | kGnuArgsSize
  | kJumpTable
  | kTailCall
  | kConditionalTailCall
  | kOffset
  | kLabel
  | kGeneric
  deriving DecidableEq

namespace Kind

/-- The enumerators of `Kind` in the order of their declaration. -/
def enumerators : List Kind :=
  [kEHLandingPad, kEHAction, kGnuArgsSize, kJumpTable, kTailCall, kConditionalTailCall,
    kOffset, kLabel, kGeneric]

/-- The numeric value of an enumerator.  No enumerator of `Kind` has an initialiser, so the
first one has value zero and each later one the value of its predecessor plus one: the value is
the position in the declaration. -/
def toNat (K : Kind) : Nat := enumerators.indexOf K

/-- The reserved kinds: the enumerators other than `kGeneric`, the first generic annotation. -/
def reserved : List Kind := enumerators.filter (fun K => decide (K ≠ kGeneric))

/-- An annotation index is reserved when it is the value of a reserved kind. -/
def isReservedIndex (k : Nat) : Prop := ∃ K ∈ reserved, K.toNat = k

end Kind

end MCAnnotation

/-! ## Simple annotations -/

/-- The class template `MCSimpleAnnotation<ValueType>`: an annotation holding a `Value` of the
payload type.  The structure constructor is the C++ constructor
`MCSimpleAnnotation(const ValueType &Val) : Value(Val)`. -/
structure MCSimpleAnnotation (ValueType : Type) where
  Value : ValueType
  deriving DecidableEq

namespace MCSimpleAnnotation

/-- The accessor `getValue()`. -/
def getValue {ValueType : Type} (A : MCSimpleAnnotation ValueType) : ValueType := A.Value

/-- The method `equals(Other)`, with `Other` cast to the same instantiation of the template: the
payloads are compared with the `operator==` of the payload type. -/
def equals {ValueType : Type} [BEq ValueType] (A Other : MCSimpleAnnotation ValueType) : Bool :=
  A.Value == Other.Value

end MCSimpleAnnotation

/-! ## Sentinels and the annotation suffix -/

/-- Number of operands of `Inst` for which `isInst()` holds. -/
def sentinelCount (Inst : MCInst) : Nat := Inst.Operands.countP MCOperand.isInst

/-- Position of the first operand of `Inst` for which `isInst()` holds (the operand count if
there is none). -/
def sentinelIndex (Inst : MCInst) : Nat := Inst.Operands.findIdx MCOperand.isInst

/-- The operand at position `i` exists and `isInst()` holds for it. -/
def SentinelAt (Inst : MCInst) (i : Nat) : Prop :=
  (Inst.getOperand i).map MCOperand.isInst = some true

instance (Inst : MCInst) (i : Nat) : Decidable (SentinelAt Inst i) := by
  unfold SentinelAt; infer_instance

/-- Every operand at a position greater than `i` is an Immediate. -/
def ImmediatesAfter (Inst : MCInst) (i : Nat) : Prop :=
  ∀ Op ∈ Inst.Operands.drop (i + 1), MCOperand.isImm Op = true

instance (Inst : MCInst) (i : Nat) : Decidable (ImmediatesAfter Inst i) := by
  unfold ImmediatesAfter; infer_instance

/-- The suffix invariant of the data model: the instruction has no sentinel, or it has exactly
one sentinel and every operand after that sentinel is an Immediate. -/
def SuffixInvariant (Inst : MCInst) : Prop :=
  sentinelCount Inst = 0 ∨
    (sentinelCount Inst = 1 ∧ ImmediatesAfter Inst (sentinelIndex Inst))

instance (Inst : MCInst) : Decidable (SuffixInvariant Inst) := by
  unfold SuffixInvariant; infer_instance

/-- Modelled from the spec: the effect of the operation Add on the operand list, which is
implemented outside `MCPlus.h`: it "appends a sentinel if none exists, then appends one Immediate
operand encoding the record".  The sentinel appended is the `kInst` operand with a `nullptr`
value, and `Encoded` is the value of the Immediate. -/
def appendAnnotationOperand (Inst : MCInst) (Encoded : Int) : MCInst :=
  let WithSentinel :=
    if Inst.Operands.any MCOperand.isInst then Inst
    else Inst.addOperand (MCOperand.Inst none)
  WithSentinel.addOperand (MCOperand.Imm Encoded)

/-- Every operand of type `kInst` in `Inst` carries a nested instruction (none has the `nullptr`
value). -/
def InstOperandsCarryPayload (Inst : MCInst) : Prop :=
  ∀ Op ∈ Inst.Operands, MCOperand.isInst Op = true → Op.getInst ≠ none

instance (Inst : MCInst) : Decidable (InstOperandsCarryPayload Inst) := by
  unfold InstOperandsCarryPayload; infer_instance

/-! ## Annotation suffix operations -/

/-- Modelled from the spec: the encoding of one AnnotationRecord, a kind or index with a
reference to its AnnotationValue, in the value of an Immediate operand.  The operations Add and
Get and this encoding are implemented outside `MCPlus.h`, and the spec fixes no bit layout, so
the two directions of the encoding are fields. -/
structure RecordEncoding where
  encode : Nat → Nat → Int
  decode : Int → Nat × Nat

/-- An encoding used for concrete instances: the kind in the low eight bits of the immediate,
the reference above them. -/
def sampleEncoding : RecordEncoding where
  encode := fun Index Ref => ((Index + 256 * Ref : Nat) : Int)
  decode := fun Val => (Val.toNat % 256, Val.toNat / 256)

/-- Modelled from the spec: an instruction together with the arena that owns the heap-allocated
AnnotationValues of the session.  A reference to an AnnotationValue is its position in the
arena. -/
structure AnnotatedInst (ValueType : Type) where
  Inst : MCInst
  Arena : List ( MCSimpleAnnotation ValueType)

/-- Modelled from the spec: the annotation suffix of an instruction, the complement of what the
scanner reports: the operands after the sentinel at the boundary. -/
def annotationSuffix (Inst : MCInst) : List MCOperand :=
  match getNumPrimeOperands Inst with
  | some N => Inst.Operands.drop (N + 1)
  | none => []

/-- The kind or index of the record that a suffix operand encodes. -/
def recordKind (E : RecordEncoding) : MCOperand → Option Nat
  | MCOperand.Imm Val => some (E.decode Val).1
  | _ => none

/-- The annotation suffix of `Inst` holds a record of the kind or index `kind`. -/
def hasAnnotation (E : RecordEncoding) (Inst : MCInst) (kind : Nat) : Bool :=
  (annotationSuffix Inst).any (fun Op => recordKind E Op == some kind)

/-- The condition with which Add fails. -/
inductive AnnotationError where
  | duplicateReservedKind
  deriving DecidableEq

/-- Modelled from the spec: the operation Add, implemented outside `MCPlus.h`: it "fails with a
duplicate-reserved-kind condition if `kind` is in the reserved zone and already present.
Otherwise appends a sentinel if none exists, then appends one Immediate operand encoding the
record".  The value is allocated in the arena and the record refers to it. -/
def Add {ValueType : Type} (E : RecordEncoding) (S : AnnotatedInst ValueType) (kind : Nat)
    (value : ValueType) : Except AnnotationError (AnnotatedInst ValueType) :=
  if kind < MCAnnotation.Kind.kGeneric.toNat ∧ hasAnnotation E S.Inst kind = true then
    Except.error AnnotationError.duplicateReservedKind
  else
    Except.ok
      { Inst := appendAnnotationOperand S.Inst (E.encode kind S.Arena.length),
        Arena := S.Arena ++ [ MCSimpleAnnotation.mk value] }

/-- Modelled from the spec: the operation Get, implemented outside `MCPlus.h`: a "linear scan of
the suffix (scanner's complement) returning the matching record, or absent". -/
def Get {ValueType : Type} (E : RecordEncoding) (S : AnnotatedInst ValueType) (kind : Nat) :
    Option ( MCSimpleAnnotation ValueType) :=
  match (annotationSuffix S.Inst).find? (fun Op => recordKind E Op == some kind) with
  | some (MCOperand.Imm Val) => S.Arena[(E.decode Val).2]?
  | _ => none

/-- Add followed by Get of the same kind on the same instruction: a failed Add leaves the
instruction as it was. -/
def addThenGet {ValueType : Type} (E : RecordEncoding) (S : AnnotatedInst ValueType)
    (kind : Nat) (value : ValueType) : Option ( MCSimpleAnnotation ValueType) :=
  match Add E S kind value with
  | Except.ok S1 => Get E S1 kind
  | Except.error _ => Get E S kind

/-! ## The scanner with its operand reads recorded -/

/-- The loop of `getNumPrimeOperands` as in `scanDown`, returning in addition the indices `I`
of the operands it inspects through `Inst.getOperand(I)`, in the order of inspection. -/
def scanDownTraced (Inst : MCInst) : Nat → List Nat × Option Nat
  | 0 => ([], some Inst.getNumOperands)
  | I + 1 =>
    match Inst.getOperand I with
    | none => ([I], none)
    | some Op =>
      if Op.isInst then ([I], some I)
      else if !Op.isImm then ([I], some Inst.getNumOperands)
      else (I :: (scanDownTraced Inst I).1, (scanDownTraced Inst I).2)

/-- The function `getNumPrimeOperands` with the inspected operand indices recorded. -/
def getNumPrimeOperandsTraced (Inst : MCInst) : List Nat × Option Nat :=
  let I : Int := toSigned (unsignedSub Inst.getNumOperands 1)
  if 0 ≤ I then scanDownTraced Inst (I.toNat + 1) else ([], some Inst.getNumOperands)

/-! ## The last operand that is not an Immediate, and the annotation records -/

/-- The operand at position `i` exists and is not an Immediate, and every operand after it is
an Immediate: `i` is the position of the last operand that is not an Immediate. -/
def IsLastNonImmediate (Inst : MCInst) (i : Nat) : Prop :=
  (Inst.getOperand i).map MCOperand.isImm = some false ∧ ImmediatesAfter Inst i

instance (Inst : MCInst) (i : Nat) : Decidable (IsLastNonImmediate Inst i) := by
  unfold IsLastNonImmediate; infer_instance

/-- The annotation records of an instruction: the operands after its first sentinel (none when
the instruction has no sentinel). -/
def annotationRecords (Inst : MCInst) : List MCOperand :=
  Inst.Operands.drop (sentinelIndex Inst + 1)

/-- The instruction whose operands are the first `N` operands of `Inst`. -/
def MCInst.firstOperands (Inst : MCInst) (N : Nat) : MCInst :=
  { Inst with Operands := Inst.Operands.take N }

/-! ## Instructions of a given size -/

/-- The instruction whose operands are a sentinel followed by `m` Immediate operands. -/
def sentinelThenImmediates (m : Nat) : MCInst :=
  MCInst.mk 0 (MCOperand.Inst none :: List.replicate m (MCOperand.Imm 0))

/-- The instruction whose operands are `m` Register operands. -/
def registersOnly (m : Nat) : MCInst :=
  MCInst.mk 0 (List.replicate m (MCOperand.Reg 0))

/-! ## General lemmas on the scanner -/

theorem isImm_not_isInst {Op : MCOperand} (h : Op.isImm = true) : Op.isInst = false := by
  cases Op <;> simp_all [MCOperand.isImm, MCOperand.isInst]

/-- Started inside the operand list, the loop reads in bounds and returns at most the operand
count. -/
theorem scanDown_total (Inst : MCInst) (k : Nat) (hk : k ≤ Inst.getNumOperands) :
    ∃ r, scanDown Inst k = some r ∧ r ≤ Inst.getNumOperands := by
  induction k with
  | zero => exact ⟨_, rfl, le_refl _⟩
  | succ k ih =>
    have hlt : k < Inst.Operands.length := hk
    simp only [scanDown, MCInst.getOperand, List.getElem?_eq_getElem hlt]
    split
    · exact ⟨k, rfl, Nat.le_of_lt hlt⟩
    · split
      · exact ⟨_, rfl, le_refl _⟩
      · exact ih (Nat.le_of_lt hlt)

/-- The loop steps over a run of Immediate operands. -/
theorem scanDown_skip (Inst : MCInst) (i d : Nat)
    (h : ∀ Op ∈ (Inst.Operands.drop i).take d, MCOperand.isImm Op = true)
    (hb : i + d ≤ Inst.getNumOperands) :
    scanDown Inst (i + d) = scanDown Inst i := by
  induction d with
  | zero => rfl
  | succ d ih =>
    have hlt : i + d < Inst.Operands.length := by
      have : i + (d + 1) ≤ Inst.Operands.length := hb
      omega
    have hmem : Inst.Operands[i + d] ∈ (Inst.Operands.drop i).take (d + 1) := by
      rw [List.mem_iff_getElem?]
      refine ⟨d, ?_⟩
      rw [List.getElem?_take_of_lt (Nat.lt_succ_self d), List.getElem?_drop,
        List.getElem?_eq_getElem hlt]
    have himm := h _ hmem
    have hrest : ∀ Op ∈ (Inst.Operands.drop i).take d, MCOperand.isImm Op = true := by
      intro Op hOp
      apply h
      rw [List.mem_iff_getElem?] at hOp ⊢
      obtain ⟨n, hn⟩ := hOp
      refine ⟨n, ?_⟩
      by_cases hnd : n < d
      · rw [List.getElem?_take_of_lt hnd] at hn
        rw [List.getElem?_take_of_lt (Nat.lt_succ_of_lt hnd)]
        exact hn
      · rw [List.getElem?_eq_none (by simp only [List.length_take]; omega)] at hn
        cases hn
    show scanDown Inst (i + d + 1) = scanDown Inst i
    rw [← ih hrest (Nat.le_of_lt hlt)]
    simp only [scanDown, MCInst.getOperand, List.getElem?_eq_getElem hlt,
      isImm_not_isInst himm, himm]
    simp

/-- Without any `kInst` operand below the starting point the loop returns the operand count. -/
theorem scanDown_no_inst (Inst : MCInst) (k : Nat) (hk : k ≤ Inst.getNumOperands)
    (h : ∀ Op ∈ Inst.Operands, MCOperand.isInst Op = false) :
    scanDown Inst k = some Inst.getNumOperands := by
  induction k with
  | zero => rfl
  | succ k ih =>
    have hlt : k < Inst.Operands.length := hk
    have hno := h _ (List.getElem_mem hlt)
    simp only [scanDown, MCInst.getOperand, List.getElem?_eq_getElem hlt, hno]
    by_cases himm : (Inst.Operands[k]).isImm = true
    · simpa [himm] using ih (Nat.le_of_lt hlt)
    · simp [himm]

/-- The scanner either skips the loop or enters it at an index inside the operand list. -/
theorem getNumPrimeOperands_cases (Inst : MCInst) :
    getNumPrimeOperands Inst = some Inst.getNumOperands ∨
      ∃ k, k ≤ Inst.getNumOperands ∧ getNumPrimeOperands Inst = scanDown Inst k := by
  unfold getNumPrimeOperands
  simp only
  split
  · rename_i h
    right
    refine ⟨_, ?_, rfl⟩
    unfold toSigned unsignedSub UINT_RANGE at *
    simp only [MCInst.getNumOperands] at *
    split_ifs at h ⊢ <;> omega
  · left; rfl

/-- When the operand count is at most `2 ^ 31`, the index `getNumOperands() - 1` is
represented exactly and the loop starts at the last operand. -/
theorem getNumPrimeOperands_eq_scanDown (Inst : MCInst)
    (hfit : Inst.getNumOperands ≤ 2 ^ 31) :
    getNumPrimeOperands Inst = scanDown Inst Inst.getNumOperands := by
  unfold getNumPrimeOperands
  simp only
  rcases Nat.eq_zero_or_pos Inst.getNumOperands with h0 | hpos
  · rw [h0]
    have : ¬ (0 : Int) ≤ toSigned (unsignedSub 0 1) := by
      unfold toSigned unsignedSub UINT_RANGE
      split_ifs <;> omega
    rw [if_neg this]
    simp [scanDown, h0]
  · have hval : toSigned (unsignedSub Inst.getNumOperands 1)
        = ((Inst.getNumOperands - 1 : Nat) : Int) := by
      unfold toSigned unsignedSub UINT_RANGE
      have e : ((2 ^ 32 - 1 % 2 ^ 32) + Inst.getNumOperands) % 2 ^ 32
          = Inst.getNumOperands - 1 := by omega
      rw [e]
      have e2 : (Inst.getNumOperands - 1) % 2 ^ 32 = Inst.getNumOperands - 1 := by omega
      rw [e2, if_pos (by omega)]
    have e3 : ((Inst.getNumOperands - 1 : Nat) : Int).toNat + 1 = Inst.getNumOperands := by
      rw [Int.toNat_ofNat]
      omega
    rw [hval, if_pos (Int.ofNat_nonneg _), e3]

/-- The scanner always returns, and returns at most the operand count. -/
theorem getNumPrimeOperands_total (Inst : MCInst) :
    ∃ r, getNumPrimeOperands Inst = some r ∧ r ≤ Inst.getNumOperands := by
  rcases getNumPrimeOperands_cases Inst with h | ⟨k, hk, h⟩
  · exact ⟨_, h, le_refl _⟩
  · rw [h]
    exact scanDown_total Inst k hk

theorem sentinelAt_iff (Inst : MCInst) (i : Nat) :
    SentinelAt Inst i ↔ ∃ h : i < Inst.Operands.length, (Inst.Operands[i]).isInst = true := by
  unfold SentinelAt MCInst.getOperand
  constructor
  · intro h
    by_cases hi : i < Inst.Operands.length
    · rw [List.getElem?_eq_getElem hi] at h
      exact ⟨hi, by simpa using h⟩
    · rw [List.getElem?_eq_none (Nat.le_of_not_lt hi)] at h
      cases h
  · rintro ⟨hi, h⟩
    rw [List.getElem?_eq_getElem hi]
    simp [h]

/-- Started at the end of the operand list, the loop returns the position of a `kInst` operand
that is followed only by Immediates. -/
theorem scanDown_sentinel (Inst : MCInst) (i : Nat) (hs : SentinelAt Inst i)
    (himm : ImmediatesAfter Inst i) :
    scanDown Inst Inst.getNumOperands = some i := by
  obtain ⟨hi, hinst⟩ := (sentinelAt_iff Inst i).1 hs
  have hn : Inst.getNumOperands = (i + 1) + (Inst.getNumOperands - (i + 1)) := by
    have : i < Inst.getNumOperands := hi
    omega
  rw [hn, scanDown_skip Inst (i + 1) _ (fun Op hOp => himm Op (List.mem_of_mem_take hOp))
    (by rw [← hn])]
  simp [scanDown, MCInst.getOperand, List.getElem?_eq_getElem hi, hinst]

/-- Without any `kInst` operand the scanner returns the operand count. -/
theorem prime_of_no_inst (Inst : MCInst)
    (h : ∀ Op ∈ Inst.Operands, MCOperand.isInst Op = false) :
    getNumPrimeOperands Inst = some Inst.getNumOperands := by
  rcases getNumPrimeOperands_cases Inst with h1 | ⟨k, hk, h1⟩
  · exact h1
  · rw [h1]
    exact scanDown_no_inst Inst k hk h

/-- The scanner returns the position of a `kInst` operand followed only by Immediates, when
the index of the last operand is a `signed` value. -/
theorem prime_of_sentinel (Inst : MCInst) (i : Nat)
    (hs : SentinelAt Inst i) (himm : ImmediatesAfter Inst i)
    (hfit : Inst.getNumOperands ≤ 2 ^ 31) :
    getNumPrimeOperands Inst = some i := by
  rw [getNumPrimeOperands_eq_scanDown Inst hfit]
  exact scanDown_sentinel Inst i hs himm

theorem sentinelCount_eq_zero_iff (Inst : MCInst) :
    sentinelCount Inst = 0 ↔ ∀ Op ∈ Inst.Operands, MCOperand.isInst Op = false := by
  unfold sentinelCount
  rw [List.countP_eq_zero]
  simp

theorem any_isInst_of_count_zero (Inst : MCInst) (h : sentinelCount Inst = 0) :
    Inst.Operands.any MCOperand.isInst = false := by
  rw [List.any_eq_false]
  intro Op hOp
  simp [(sentinelCount_eq_zero_iff Inst).1 h Op hOp]

theorem any_isInst_of_count_pos (Inst : MCInst) (h : 0 < sentinelCount Inst) :
    Inst.Operands.any MCOperand.isInst = true := by
  rw [List.any_eq_true]
  exact List.countP_pos_iff.1 h

/-- When the instruction has a `kInst` operand, `sentinelIndex` is the position of one. -/
theorem sentinelAt_sentinelIndex (Inst : MCInst) (h : 0 < sentinelCount Inst) :
    SentinelAt Inst (sentinelIndex Inst) := by
  have hex : ∃ x ∈ Inst.Operands, MCOperand.isInst x = true := List.countP_pos_iff.1 h
  have hlt : Inst.Operands.findIdx MCOperand.isInst < Inst.Operands.length :=
    List.findIdx_lt_length_of_exists hex
  rw [sentinelAt_iff]
  exact ⟨hlt, List.findIdx_getElem⟩

/-- Operands appended to an instruction do not move the operand at position `i`. -/
theorem sentinelAt_append (Inst : MCInst) (i : Nat) (l : List MCOperand)
    (hs : SentinelAt Inst i) :
    SentinelAt { Inst with Operands := Inst.Operands ++ l } i := by
  obtain ⟨hi, hinst⟩ := (sentinelAt_iff Inst i).1 hs
  have hlt : i < (Inst.Operands ++ l).length := by
    rw [List.length_append]
    omega
  rw [sentinelAt_iff]
  refine ⟨hlt, ?_⟩
  show ((Inst.Operands ++ l)[i]).isInst = true
  rw [List.getElem_append_left hi]
  exact hinst

/-- Immediates appended after position `i` keep the operands after `i` Immediates. -/
theorem immediatesAfter_append (Inst : MCInst) (i : Nat) (l : List MCOperand)
    (hi : i < Inst.Operands.length) (himm : ImmediatesAfter Inst i)
    (hl : ∀ Op ∈ l, MCOperand.isImm Op = true) :
    ImmediatesAfter { Inst with Operands := Inst.Operands ++ l } i := by
  intro Op hOp
  have hOp2 : Op ∈ (Inst.Operands ++ l).drop (i + 1) := hOp
  rw [List.drop_append_of_le_length (by omega), List.mem_append] at hOp2
  rcases hOp2 with h | h
  · exact himm Op h
  · exact hl Op h

/-- A `kInst` operand appended to an instruction sits at the old operand count, and nothing
follows it. -/
theorem sentinelAt_length_append (Inst : MCInst) (p : Option Nat) (l : List MCOperand) :
    SentinelAt { Inst with Operands := Inst.Operands ++ MCOperand.Inst p :: l }
      Inst.Operands.length := by
  rw [sentinelAt_iff]
  refine ⟨?_, ?_⟩
  · show Inst.Operands.length < (Inst.Operands ++ MCOperand.Inst p :: l).length
    rw [List.length_append, List.length_cons]
    omega
  · show ((Inst.Operands ++ MCOperand.Inst p :: l)[Inst.Operands.length]).isInst = true
    rw [List.getElem_append_right (le_refl _)]
    simp [MCOperand.isInst]

theorem immediatesAfter_length_append (Inst : MCInst) (p : Option Nat) (l : List MCOperand)
    (hl : ∀ Op ∈ l, MCOperand.isImm Op = true) :
    ImmediatesAfter { Inst with Operands := Inst.Operands ++ MCOperand.Inst p :: l }
      Inst.Operands.length := by
  intro Op hOp
  have hOp2 : Op ∈ (Inst.Operands ++ MCOperand.Inst p :: l).drop (Inst.Operands.length + 1) :=
    hOp
  rw [List.drop_append_eq_append_drop, List.drop_of_length_le (by omega)] at hOp2
  simp only [List.nil_append, Nat.add_sub_cancel_left, List.drop_succ_cons, List.drop_zero]
    at hOp2
  exact hl Op hOp2

/-- The operand list after the operand-list effect of Add. -/
theorem appendAnnotationOperand_operands (Inst : MCInst) (Encoded : Int) :
    appendAnnotationOperand Inst Encoded =
      if sentinelCount Inst = 0 then
        { Inst with Operands := Inst.Operands ++ [MCOperand.Inst none, MCOperand.Imm Encoded] }
      else { Inst with Operands := Inst.Operands ++ [MCOperand.Imm Encoded] } := by
  unfold appendAnnotationOperand
  by_cases h : sentinelCount Inst = 0
  · simp [h, any_isInst_of_count_zero Inst h, MCInst.addOperand]
  · simp [h, any_isInst_of_count_pos Inst (Nat.pos_of_ne_zero h), MCInst.addOperand]

/-- Erasing an operand after position `i` does not move the operand at position `i`. -/
theorem sentinelAt_erase (Inst : MCInst) (i j : Nat) (hs : SentinelAt Inst i) (hij : i < j) :
    SentinelAt (Inst.erase j) i := by
  unfold SentinelAt MCInst.getOperand MCInst.erase at *
  simp only
  rw [List.getElem?_eraseIdx_of_lt _ _ _ hij]
  exact hs

/-- Erasing an operand keeps the operands after position `i` Immediates. -/
theorem immediatesAfter_erase (Inst : MCInst) (i j : Nat) (himm : ImmediatesAfter Inst i) :
    ImmediatesAfter (Inst.erase j) i := by
  intro Op hOp
  have hOp2 : Op ∈ (Inst.Operands.eraseIdx j).drop (i + 1) := hOp
  apply himm
  rw [List.mem_iff_getElem?] at hOp2 ⊢
  obtain ⟨k, hk⟩ := hOp2
  rw [List.getElem?_drop, List.getElem?_eraseIdx] at hk
  split at hk
  · exact ⟨k, by rw [List.getElem?_drop]; exact hk⟩
  · exact ⟨k + 1, by rw [List.getElem?_drop]; exact hk⟩

theorem getNumOperands_erase_le (Inst : MCInst) (j : Nat) :
    (Inst.erase j).getNumOperands ≤ Inst.getNumOperands :=
  List.length_eraseIdx_le _ _

/-- With more than `2 ^ 31` operands (and a count that is an `unsigned` value) the `signed`
loop index starts negative: the loop is skipped and the operand count is returned. -/
theorem prime_of_large (Inst : MCInst) (hlo : 2 ^ 31 < Inst.getNumOperands)
    (hhi : Inst.getNumOperands < 2 ^ 32) :
    getNumPrimeOperands Inst = some Inst.getNumOperands := by
  unfold getNumPrimeOperands
  simp only
  rw [if_neg]
  unfold toSigned unsignedSub UINT_RANGE
  split_ifs <;> omega

/-- The loop returns the operand count when the last operand that is not an Immediate is not of
type `kInst` either. -/
theorem scanDown_stop (Inst : MCInst) (pre imms : List MCOperand) (x : MCOperand)
    (hops : Inst.Operands = pre ++ [x] ++ imms)
    (hx1 : x.isImm = false) (hx2 : x.isInst = false)
    (himms : ∀ Op ∈ imms, MCOperand.isImm Op = true) :
    scanDown Inst Inst.getNumOperands = some Inst.getNumOperands := by
  have hlen : Inst.getNumOperands = (pre.length + 1) + imms.length := by
    simp only [MCInst.getNumOperands, hops, List.length_append, List.length_cons,
      List.length_nil]
  have hdrop : Inst.Operands.drop (pre.length + 1) = imms := by
    rw [hops]
    have : (pre ++ [x]).length = pre.length + 1 := by simp
    rw [← this, List.drop_left]
  have hget : Inst.Operands[pre.length]? = some x := by
    rw [hops, List.append_assoc, List.getElem?_append_right (le_refl _)]
    simp
  have hskip := scanDown_skip Inst (pre.length + 1) imms.length
    (fun Op hOp => himms Op (by rw [hdrop] at hOp; exact List.mem_of_mem_take hOp))
    (by rw [hlen])
  rw [← hlen] at hskip
  rw [hskip]
  simp [scanDown, MCInst.getOperand, hget, hx1, hx2]

/-- The operand-list effect of Add keeps the boundary and grows the operand list by the
record, and by the sentinel when there was none. -/
theorem prime_appendAnnotationOperand (Inst : MCInst) (Encoded : Int)
    (hinv : SuffixInvariant Inst)
    (hfit : (appendAnnotationOperand Inst Encoded).getNumOperands ≤ 2 ^ 31) :
    getNumPrimeOperands (appendAnnotationOperand Inst Encoded) = getNumPrimeOperands Inst ∧
      (appendAnnotationOperand Inst Encoded).getNumOperands =
        Inst.getNumOperands + (if sentinelCount Inst = 0 then 2 else 1) := by
  rw [appendAnnotationOperand_operands] at hfit ⊢
  rcases hinv with h0 | ⟨h1, himm⟩
  · rw [if_pos h0] at hfit ⊢
    rw [if_pos h0]
    refine ⟨?_, ?_⟩
    · rw [prime_of_no_inst Inst ((sentinelCount_eq_zero_iff Inst).1 h0)]
      exact prime_of_sentinel _ _ (sentinelAt_length_append Inst none _)
        (immediatesAfter_length_append Inst none _ (by simp [MCOperand.isImm])) hfit
    · simp [MCInst.getNumOperands]
  · have hne : ¬ sentinelCount Inst = 0 := by omega
    rw [if_neg hne] at hfit ⊢
    rw [if_neg hne]
    have hs := sentinelAt_sentinelIndex Inst (by omega)
    obtain ⟨hi, _⟩ := (sentinelAt_iff Inst _).1 hs
    have hlen : ({ Inst with Operands := Inst.Operands ++ [MCOperand.Imm Encoded] } :
        MCInst).getNumOperands = Inst.getNumOperands + 1 := by
      simp [MCInst.getNumOperands]
    refine ⟨?_, hlen⟩
    rw [prime_of_sentinel Inst _ hs himm (by rw [hlen] at hfit; omega)]
    exact prime_of_sentinel _ _ (sentinelAt_append Inst _ _ hs)
      (immediatesAfter_append Inst _ _ hi himm (by simp [MCOperand.isImm])) hfit

/-- The operand-list effect of Add puts the new record at the end of the annotation suffix. -/
theorem annotationSuffix_appendAnnotationOperand (Inst : MCInst) (Encoded : Int)
    (hinv : SuffixInvariant Inst)
    (hfit : (appendAnnotationOperand Inst Encoded).getNumOperands ≤ 2 ^ 31) :
    annotationSuffix (appendAnnotationOperand Inst Encoded)
      = annotationSuffix Inst ++ [MCOperand.Imm Encoded] := by
  have hprime := (prime_appendAnnotationOperand Inst Encoded hinv hfit).1
  rcases hinv with h0 | ⟨h1, himm⟩
  · have hold := prime_of_no_inst Inst ((sentinelCount_eq_zero_iff Inst).1 h0)
    unfold annotationSuffix
    rw [hprime, hold]
    rw [appendAnnotationOperand_operands, if_pos h0]
    simp only [MCInst.getNumOperands]
    rw [List.drop_of_length_le (Nat.le_succ _), List.drop_append_eq_append_drop,
      List.drop_of_length_le (Nat.le_succ _)]
    simp
  · have hne : ¬ sentinelCount Inst = 0 := by omega
    have hs := sentinelAt_sentinelIndex Inst (by omega)
    obtain ⟨hi, _⟩ := (sentinelAt_iff Inst _).1 hs
    have hlen : Inst.getNumOperands ≤ 2 ^ 31 := by
      rw [appendAnnotationOperand_operands, if_neg hne] at hfit
      have : Inst.getNumOperands ≤ ({ Inst with Operands := Inst.Operands ++
          [MCOperand.Imm Encoded] } : MCInst).getNumOperands := by
        simp [MCInst.getNumOperands]
      exact le_trans this hfit
    have hold := prime_of_sentinel Inst _ hs himm hlen
    unfold annotationSuffix
    rw [hprime, hold]
    rw [appendAnnotationOperand_operands, if_neg hne]
    simp only
    rw [List.drop_append_of_le_length (by omega)]

/-- Recording the reads does not change what the loop returns. -/
theorem scanDownTraced_snd (Inst : MCInst) (k : Nat) :
    (scanDownTraced Inst k).2 = scanDown Inst k := by
  induction k with
  | zero => rfl
  | succ k ih =>
    unfold scanDownTraced scanDown
    cases Inst.getOperand k with
    | none => rfl
    | some Op =>
      simp only
      split
      · rfl
      · split
        · rfl
        · exact ih

/-- Recording the reads does not change what the scanner returns. -/
theorem getNumPrimeOperandsTraced_snd (Inst : MCInst) :
    (getNumPrimeOperandsTraced Inst).2 = getNumPrimeOperands Inst := by
  unfold getNumPrimeOperandsTraced getNumPrimeOperands
  simp only
  split
  · exact scanDownTraced_snd Inst _
  · rfl

/-- The loop entered with `k` operands to inspect reads at most `k` operands, all at indices
below `k`, each index lower than the one before. -/
theorem scanDownTraced_reads (Inst : MCInst) (k : Nat) :
    (scanDownTraced Inst k).1.length ≤ k ∧
      (∀ I ∈ (scanDownTraced Inst k).1, I < k) ∧
      (scanDownTraced Inst k).1.Pairwise (fun a b => b < a) := by
  induction k with
  | zero => exact ⟨le_refl _, fun I hI => (by cases hI), List.Pairwise.nil⟩
  | succ k ih =>
    have hsingle : ([k] : List Nat).length ≤ k + 1 ∧ (∀ I ∈ ([k] : List Nat), I < k + 1) ∧
        ([k] : List Nat).Pairwise (fun a b => b < a) := by
      refine ⟨by simp, ?_, List.pairwise_singleton _ _⟩
      intro I hI
      rw [List.mem_singleton] at hI
      omega
    unfold scanDownTraced
    cases Inst.getOperand k with
    | none => exact hsingle
    | some Op =>
      simp only
      split
      · exact hsingle
      · split
        · exact hsingle
        · obtain ⟨h1, h2, h3⟩ := ih
          refine ⟨?_, ?_, ?_⟩
          · simp only [List.length_cons]
            omega
          · intro I hI
            rw [List.mem_cons] at hI
            rcases hI with rfl | hI
            · omega
            · exact Nat.lt_succ_of_lt (h2 I hI)
          · exact List.Pairwise.cons (fun b hb => h2 b hb) h3

/-- The traced scanner either skips the loop or enters it at an index inside the operand
list. -/
theorem getNumPrimeOperandsTraced_cases (Inst : MCInst) :
    getNumPrimeOperandsTraced Inst = ([], some Inst.getNumOperands) ∨
      ∃ k, k ≤ Inst.getNumOperands ∧
        getNumPrimeOperandsTraced Inst = scanDownTraced Inst k := by
  unfold getNumPrimeOperandsTraced
  simp only
  split
  · rename_i h
    right
    refine ⟨_, ?_, rfl⟩
    unfold toSigned unsignedSub UINT_RANGE at *
    simp only [MCInst.getNumOperands] at *
    split_ifs at h ⊢ <;> omega
  · left; rfl

/-- For the empty instruction the `unsigned` expression `0 - 1` converts to the `signed`
value `-1`. -/
theorem toSigned_unsignedSub_zero : toSigned (unsignedSub 0 1) = -1 := by
  decide

/-- A result below the operand count is the position of a `kInst` operand, and every operand
the loop stepped over on its way down to it is an Immediate. -/
theorem scanDown_inv (Inst : MCInst) (r : Nat) (hr : r < Inst.getNumOperands) (k : Nat)
    (hk : k ≤ Inst.getNumOperands) (h : scanDown Inst k = some r) :
    SentinelAt Inst r ∧ r < k ∧
      ∀ j, r < j → j < k → ∃ Op, Inst.Operands[j]? = some Op ∧ Op.isImm = true := by
  induction k with
  | zero =>
    have h2 : some Inst.getNumOperands = some r := h
    have : Inst.getNumOperands = r := Option.some.inj h2
    omega
  | succ k ih =>
    have hlt : k < Inst.Operands.length := hk
    simp only [scanDown, MCInst.getOperand, List.getElem?_eq_getElem hlt] at h
    by_cases hinst : (Inst.Operands[k]).isInst = true
    · rw [if_pos hinst] at h
      have hrk : k = r := Option.some.inj h
      subst hrk
      refine ⟨(sentinelAt_iff Inst k).2 ⟨hlt, hinst⟩, Nat.lt_succ_self k, ?_⟩
      intro j h1 h2
      omega
    · rw [if_neg hinst] at h
      by_cases himm : (Inst.Operands[k]).isImm = true
      · have hnot : ¬ ((!(Inst.Operands[k]).isImm) = true) := by simp [himm]
        rw [if_neg hnot] at h
        obtain ⟨hs, hrk, hall⟩ := ih (Nat.le_of_lt hlt) h
        refine ⟨hs, Nat.lt_succ_of_lt hrk, ?_⟩
        intro j h1 h2
        by_cases hjk : j < k
        · exact hall j h1 hjk
        · have hj : j = k := by omega
          subst hj
          exact ⟨_, List.getElem?_eq_getElem hlt, himm⟩
      · have hyes : (!(Inst.Operands[k]).isImm) = true := by simp [himm]
        rw [if_pos hyes] at h
        have : Inst.getNumOperands = r := Option.some.inj h
        omega

/-- Immediates at every index after `r` make `ImmediatesAfter`. -/
theorem immediatesAfter_of_index (Inst : MCInst) (r : Nat)
    (h : ∀ j, r < j → j < Inst.getNumOperands →
      ∃ Op, Inst.Operands[j]? = some Op ∧ Op.isImm = true) :
    ImmediatesAfter Inst r := by
  intro Op hOp
  rw [List.mem_iff_getElem?] at hOp
  obtain ⟨m, hm⟩ := hOp
  rw [List.getElem?_drop] at hm
  have hlt : r + 1 + m < Inst.Operands.length := by
    by_contra hcon
    rw [List.getElem?_eq_none (Nat.le_of_not_lt hcon)] at hm
    cases hm
  obtain ⟨Op2, h2, himm⟩ := h (r + 1 + m) (by omega) hlt
  rw [hm] at h2
  cases h2
  exact himm

/-- An operand of type `kInst` does not lie after a position that only Immediates follow. -/
theorem sentinel_le_of_immediatesAfter (Inst : MCInst) (r j : Nat)
    (himm : ImmediatesAfter Inst r) (hs : SentinelAt Inst j) : j ≤ r := by
  by_contra hcon
  obtain ⟨hj, hinst⟩ := (sentinelAt_iff Inst j).1 hs
  have hmem : Inst.Operands[j] ∈ Inst.Operands.drop (r + 1) := by
    rw [List.mem_iff_getElem?]
    refine ⟨j - (r + 1), ?_⟩
    rw [List.getElem?_drop]
    have : r + 1 + (j - (r + 1)) = j := by omega
    rw [this, List.getElem?_eq_getElem hj]
  have := isImm_not_isInst (himm _ hmem)
  rw [hinst] at this
  cases this

/-- A list of operands consists of Immediates only, or has a last operand that is not an
Immediate. -/
theorem immediates_or_last (l : List MCOperand) :
    (∀ Op ∈ l, MCOperand.isImm Op = true) ∨
      ∃ i, (l[i]?).map MCOperand.isImm = some false ∧
        ∀ Op ∈ l.drop (i + 1), MCOperand.isImm Op = true := by
  induction l with
  | nil => left; intro Op hOp; cases hOp
  | cons a t ih =>
    rcases ih with hall | ⟨i, hi, hafter⟩
    · by_cases ha : a.isImm = true
      · left
        intro Op hOp
        rw [List.mem_cons] at hOp
        rcases hOp with rfl | hOp
        · exact ha
        · exact hall Op hOp
      · right
        refine ⟨0, ?_, ?_⟩
        · simp [ha]
        · simpa using hall
    · right
      refine ⟨i + 1, ?_, ?_⟩
      · simpa using hi
      · simpa using hafter

/-- Started at the end of the operand list, the loop steps down to the last operand that is
not an Immediate and decides there. -/
theorem scanDown_at_last (Inst : MCInst) (i : Nat) (hlast : IsLastNonImmediate Inst i) :
    scanDown Inst Inst.getNumOperands
      = if SentinelAt Inst i then some i else some Inst.getNumOperands := by
  obtain ⟨hget, himm⟩ := hlast
  have hi : i < Inst.Operands.length := by
    by_contra hcon
    unfold MCInst.getOperand at hget
    rw [List.getElem?_eq_none (Nat.le_of_not_lt hcon)] at hget
    cases hget
  have hnimm : (Inst.Operands[i]).isImm = false := by
    unfold MCInst.getOperand at hget
    rw [List.getElem?_eq_getElem hi] at hget
    simpa using hget
  by_cases hs : SentinelAt Inst i
  · rw [if_pos hs]
    exact scanDown_sentinel Inst i hs himm
  · rw [if_neg hs]
    have hninst : (Inst.Operands[i]).isInst = false := by
      by_contra hcon
      exact hs ((sentinelAt_iff Inst i).2 ⟨hi, by simpa using hcon⟩)
    have hn : Inst.getNumOperands = (i + 1) + (Inst.getNumOperands - (i + 1)) := by
      have : i < Inst.getNumOperands := hi
      omega
    rw [hn, scanDown_skip Inst (i + 1) _ (fun Op hOp => himm Op (List.mem_of_mem_take hOp))
      (by rw [← hn]), ← hn]
    simp [scanDown, MCInst.getOperand, List.getElem?_eq_getElem hi, hninst, hnimm]

/-- The range `primeOperands` builds from the result of the scanner. -/
theorem primeOperands_of (Inst : MCInst) (r : Nat) (hr : getNumPrimeOperands Inst = some r)
    (hle : r ≤ Inst.getNumOperands) : primeOperands Inst = some ⟨0, r⟩ := by
  unfold primeOperands
  rw [hr]
  simp only [beginPlus, hle, Nat.zero_le, if_true]

/-- The operands visited by the range from the start to position `r`. -/
theorem operands_range_zero (Inst : MCInst) (r : Nat) :
    (iterator_range.mk 0 r).operands Inst = Inst.Operands.take r := by
  simp [iterator_range.operands]

/-- With at most one operand of type `kInst`, none lies before one at position `r`. -/
theorem no_inst_before (Inst : MCInst) (r : Nat) (hone : sentinelCount Inst ≤ 1)
    (hs : SentinelAt Inst r) :
    ∀ Op ∈ Inst.Operands.take r, MCOperand.isInst Op = false := by
  obtain ⟨hr, hinst⟩ := (sentinelAt_iff Inst r).1 hs
  have hsplit : sentinelCount Inst
      = (Inst.Operands.take r).countP MCOperand.isInst
        + (Inst.Operands.drop r).countP MCOperand.isInst := by
    unfold sentinelCount
    rw [← List.countP_append, List.take_append_drop]
  have hdrop : (Inst.Operands.drop r).countP MCOperand.isInst
      = (Inst.Operands.drop (r + 1)).countP MCOperand.isInst + 1 := by
    rw [List.drop_eq_getElem_cons hr, List.countP_cons_of_pos _ _ hinst]
  have hzero : (Inst.Operands.take r).countP MCOperand.isInst = 0 := by omega
  rw [List.countP_eq_zero] at hzero
  intro Op hOp
  simpa using hzero Op hOp

/-- No operand before the first operand of type `kInst` is of type `kInst`. -/
theorem no_inst_before_sentinelIndex (Inst : MCInst) :
    ∀ Op ∈ Inst.Operands.take (sentinelIndex Inst), MCOperand.isInst Op = false := by
  intro Op hOp
  rw [List.mem_take_iff_getElem] at hOp
  obtain ⟨i, hi, rfl⟩ := hOp
  have hlt : i < sentinelIndex Inst := lt_of_lt_of_le hi (Nat.min_le_left _ _)
  have := List.not_of_lt_findIdx hlt
  simpa using this

/-! ## Instructions above the range of the signed index -/

theorem getNumOperands_sentinelThenImmediates (m : Nat) :
    (sentinelThenImmediates m).getNumOperands = m + 1 := by
  unfold sentinelThenImmediates MCInst.getNumOperands
  rw [List.length_cons, List.length_replicate]

theorem sentinelAt_sentinelThenImmediates (m : Nat) :
    SentinelAt (sentinelThenImmediates m) 0 := by
  rw [sentinelAt_iff]
  exact ⟨Nat.zero_lt_succ _, rfl⟩

theorem immediatesAfter_sentinelThenImmediates (m : Nat) :
    ImmediatesAfter (sentinelThenImmediates m) 0 := by
  intro Op hOp
  have hOp2 : Op ∈ List.replicate m (MCOperand.Imm 0) := hOp
  rw [List.eq_of_mem_replicate hOp2]
  rfl

theorem isLastNonImmediate_sentinelThenImmediates (m : Nat) :
    IsLastNonImmediate (sentinelThenImmediates m) 0 := by
  refine ⟨?_, immediatesAfter_sentinelThenImmediates m⟩
  show ((MCOperand.Inst none :: List.replicate m (MCOperand.Imm 0))[0]?).map MCOperand.isImm
    = some false
  rw [List.getElem?_cons_zero]
  rfl

theorem sentinelCount_sentinelThenImmediates (m : Nat) :
    sentinelCount (sentinelThenImmediates m) = 1 := by
  unfold sentinelCount sentinelThenImmediates
  have hz : (List.replicate m (MCOperand.Imm 0)).countP MCOperand.isInst = 0 := by
    rw [List.countP_eq_zero]
    intro Op hOp
    rw [List.eq_of_mem_replicate hOp]
    simp [MCOperand.isInst]
  show (MCOperand.Inst none :: List.replicate m (MCOperand.Imm 0)).countP MCOperand.isInst = 1
  rw [List.countP_cons_of_pos _ _ rfl, hz]

theorem sentinelIndex_sentinelThenImmediates (m : Nat) :
    sentinelIndex (sentinelThenImmediates m) = 0 := by
  unfold sentinelIndex sentinelThenImmediates
  show (MCOperand.Inst none :: List.replicate m (MCOperand.Imm 0)).findIdx MCOperand.isInst = 0
  rw [List.findIdx_cons]
  rfl

theorem suffixInvariant_sentinelThenImmediates (m : Nat) :
    SuffixInvariant (sentinelThenImmediates m) := by
  right
  refine ⟨sentinelCount_sentinelThenImmediates m, ?_⟩
  rw [sentinelIndex_sentinelThenImmediates]
  exact immediatesAfter_sentinelThenImmediates m

/-- Above `2 ^ 31` operands the scanner skips the loop: it reports the operand count although
the sentinel at position 0 is followed only by Immediates. -/
theorem prime_sentinelThenImmediates (m : Nat) (hlo : 2 ^ 31 ≤ m) (hhi : m + 1 < 2 ^ 32) :
    getNumPrimeOperands (sentinelThenImmediates m) = some (m + 1) := by
  have hn := getNumOperands_sentinelThenImmediates m
  have h := prime_of_large (sentinelThenImmediates m) (by rw [hn]; omega) (by rw [hn]; exact hhi)
  rw [hn] at h
  exact h

theorem getNumOperands_registersOnly (m : Nat) : (registersOnly m).getNumOperands = m := by
  unfold registersOnly MCInst.getNumOperands
  rw [List.length_replicate]

theorem no_inst_registersOnly (m : Nat) :
    ∀ Op ∈ (registersOnly m).Operands, MCOperand.isInst Op = false := by
  intro Op hOp
  have hOp2 : Op ∈ List.replicate m (MCOperand.Reg 0) := hOp
  rw [List.eq_of_mem_replicate hOp2]
  rfl

theorem sentinelCount_registersOnly (m : Nat) : sentinelCount (registersOnly m) = 0 :=
  (sentinelCount_eq_zero_iff _).2 (no_inst_registersOnly m)

theorem prime_registersOnly (m : Nat) :
    getNumPrimeOperands (registersOnly m) = some m := by
  have h := prime_of_no_inst (registersOnly m) (no_inst_registersOnly m)
  rw [getNumOperands_registersOnly] at h
  exact h

/-- The operand count after the operand-list effect of Add on an instruction with no
sentinel. -/
theorem getNumOperands_append_registersOnly (m : Nat) (Encoded : Int) :
    (appendAnnotationOperand (registersOnly m) Encoded).getNumOperands = m + 2 := by
  rw [appendAnnotationOperand_operands, if_pos (sentinelCount_registersOnly m)]
  unfold registersOnly MCInst.getNumOperands
  show (List.replicate m (MCOperand.Reg 0)
    ++ [MCOperand.Inst none, MCOperand.Imm Encoded]).length = m + 2
  rw [List.length_append, List.length_replicate]
  rfl

/-- Pushed above `2 ^ 31` operands by the Add, the instruction is reported to have no
annotation operands at all. -/
theorem prime_append_registersOnly (m : Nat) (Encoded : Int) (hlo : 2 ^ 31 < m + 2)
    (hhi : m + 2 < 2 ^ 32) :
    getNumPrimeOperands (appendAnnotationOperand (registersOnly m) Encoded) = some (m + 2) := by
  have hn := getNumOperands_append_registersOnly m Encoded
  have h := prime_of_large (appendAnnotationOperand (registersOnly m) Encoded)
    (by rw [hn]; exact hlo) (by rw [hn]; exact hhi)
  rw [hn] at h
  exact h

theorem getNumOperands_erase_sentinelThenImmediates (m : Nat) :
    ((sentinelThenImmediates (m + 1)).erase 1).getNumOperands = m + 1 := by
  have hn := getNumOperands_sentinelThenImmediates (m + 1)
  have hlt : 1 < (sentinelThenImmediates (m + 1)).Operands.length := by
    have : (sentinelThenImmediates (m + 1)).Operands.length = m + 1 + 1 := hn
    omega
  show ((sentinelThenImmediates (m + 1)).Operands.eraseIdx 1).length = m + 1
  rw [List.length_eraseIdx_of_lt hlt]
  have : (sentinelThenImmediates (m + 1)).Operands.length = m + 1 + 1 := hn
  omega

/-- Above `2 ^ 31` operands the scanner still reports the operand count after an annotation
operand is erased. -/
theorem prime_erase_sentinelThenImmediates (m : Nat) (hlo : 2 ^ 31 < m + 1)
    (hhi : m + 1 < 2 ^ 32) :
    getNumPrimeOperands ((sentinelThenImmediates (m + 1)).erase 1) = some (m + 1) := by
  have hn := getNumOperands_erase_sentinelThenImmediates m
  have h := prime_of_large ((sentinelThenImmediates (m + 1)).erase 1)
    (by rw [hn]; exact hlo) (by rw [hn]; exact hhi)
  rw [hn] at h
  exact h

/-- The range from the start to the operand count visits the sentinel at position 0. -/
theorem sentinel_mem_operands_sentinelThenImmediates (m : Nat) :
    MCOperand.Inst none ∈ (iterator_range.mk 0 (m + 1)).operands (sentinelThenImmediates m) := by
  rw [operands_range_zero]
  show MCOperand.Inst none
    ∈ (MCOperand.Inst none :: List.replicate m (MCOperand.Imm 0)).take (m + 1)
  rw [List.take_succ_cons]
  exact List.mem_cons_self _ _

/-- Above `2 ^ 31` operands `primeOperands` ranges over the whole operand list. -/
theorem primeOperands_sentinelThenImmediates (m : Nat) (hlo : 2 ^ 31 ≤ m)
    (hhi : m + 1 < 2 ^ 32) :
    primeOperands (sentinelThenImmediates m) = some ⟨0, m + 1⟩ :=
  primeOperands_of _ _ (prime_sentinelThenImmediates m hlo hhi)
    (by rw [getNumOperands_sentinelThenImmediates])

/-! ## The claims -/

/-- C1: for every instruction whose operand list contains no sentinel (no operand with
`isInst()` true), `getNumPrimeOperands` returns the total operand count, whatever the variants
of the operands are and however many trailing Immediate operands there are. -/
theorem getNumPrimeOperands_no_sentinel (Inst : MCInst)
    (h : ∀ Op ∈ Inst.Operands, MCOperand.isInst Op = false) :
    getNumPrimeOperands Inst = some Inst.getNumOperands :=
  prime_of_no_inst Inst h

/-- Witness of C1: an instruction all of whose operands are Immediates has three prime
operands. -/
theorem getNumPrimeOperands_no_sentinel_witness :
    (∀ Op ∈ (MCInst.mk 0 [MCOperand.Imm 1, MCOperand.Imm 2, MCOperand.Imm 3]).Operands,
        MCOperand.isInst Op = false) ∧
      getNumPrimeOperands (MCInst.mk 0 [MCOperand.Imm 1, MCOperand.Imm 2, MCOperand.Imm 3])
        = some 3 :=
  ⟨by decide, getNumPrimeOperands_no_sentinel _ (by decide)⟩

/-- C3: for every instruction, `primeOperands` yields exactly the operands at the indices
`0 .. getNumPrimeOperands(Inst) - 1`, in their original order and nothing else, and the mutable
and the const overload denote the same range of positions. -/
theorem primeOperands_eq_take (Inst : MCInst) :
    ∃ N R, getNumPrimeOperands Inst = some N ∧
      primeOperands Inst = some R ∧ primeOperandsConst Inst = some R ∧
      R.first = 0 ∧ R.last = N ∧
      R.operands Inst = Inst.Operands.take N ∧
      (R.operands Inst).length = N ∧
      ∀ I, I < N → (R.operands Inst)[I]? = Inst.getOperand I := by
  obtain ⟨N, hN, hle⟩ := getNumPrimeOperands_total Inst
  have hle2 : N ≤ Inst.Operands.length := hle
  refine ⟨N, ⟨0, N⟩, hN, ?_, ?_, rfl, rfl, ?_, ?_, ?_⟩
  · unfold primeOperands
    rw [hN]
    simp only [beginPlus, hle, Nat.zero_le, if_true]
  · unfold primeOperandsConst
    rw [hN]
    simp only [beginPlus, hle, Nat.zero_le, if_true]
  · simp [iterator_range.operands]
  · simp [iterator_range.operands, hle2]
  · intro I hI
    simp [iterator_range.operands, MCInst.getOperand, List.getElem?_take_of_lt hI]

/-- C6: for every payload type and all payload values `v` and `w` of that type,
`MCSimpleAnnotation(v).equals( MCSimpleAnnotation(w))` returns true if and only if `v == w` under
the payload's own equality, and `getValue()` on `MCSimpleAnnotation(v)` returns `v`. -/
theorem MCSimpleAnnotation.equals_iff_getValue {ValueType : Type} [BEq ValueType]
    (v w : ValueType) :
    (( MCSimpleAnnotation.mk v).equals ( MCSimpleAnnotation.mk w) = true ↔ (v == w) = true) ∧
      ( MCSimpleAnnotation.mk v).getValue = v :=
  ⟨Iff.rfl, rfl⟩

/-- C7, as stated, fails: in `[Register R1, Inst p]` the only operand of type `kInst` carries a
nested instruction, yet the scanner reports its index 1 and not the operand count 2. -/
theorem payload_inst_counterexample :
    InstOperandsCarryPayload (MCInst.mk 0 [MCOperand.Reg 1, MCOperand.Inst (some 7)]) ∧
      getNumPrimeOperands (MCInst.mk 0 [MCOperand.Reg 1, MCOperand.Inst (some 7)]) = some 1 ∧
      getNumPrimeOperands (MCInst.mk 0 [MCOperand.Reg 1, MCOperand.Inst (some 7)])
        ≠ some (MCInst.mk 0 [MCOperand.Reg 1, MCOperand.Inst (some 7)]).getNumOperands := by
  decide

/-- C7, amended: the scanner treats every operand of type `kInst` as the sentinel, whether its
nested-instruction value is null or not.  It returns the operand count for every instruction
with no operand of type `kInst` at all, and it returns `i` when an operand of type `kInst` at
index `i`, with any value, is followed only by Immediates (in an instruction of at most `2 ^ 31`
operands). -/
theorem inst_operand_is_sentinel (Inst : MCInst) :
    ((∀ Op ∈ Inst.Operands, MCOperand.isInst Op = false) →
        getNumPrimeOperands Inst = some Inst.getNumOperands) ∧
      (∀ (i : Nat) (p : Option Nat), Inst.getOperand i = some (MCOperand.Inst p) →
        ImmediatesAfter Inst i → Inst.getNumOperands ≤ 2 ^ 31 →
        getNumPrimeOperands Inst = some i) := by
  refine ⟨prime_of_no_inst Inst, ?_⟩
  intro i p hget himm hfit
  refine prime_of_sentinel Inst i ?_ himm hfit
  unfold SentinelAt
  rw [hget]
  rfl

/-- Witness of the amended C7: `[Register R1, Inst p, Immediate]` with a non-null `p` gives 1. -/
theorem inst_operand_is_sentinel_witness :
    getNumPrimeOperands
      (MCInst.mk 0 [MCOperand.Reg 1, MCOperand.Inst (some 7), MCOperand.Imm 3]) = some 1 :=
  (inst_operand_is_sentinel
    (MCInst.mk 0 [MCOperand.Reg 1, MCOperand.Inst (some 7), MCOperand.Imm 3])).2 1 (some 7)
    (by decide) (by decide) (by decide)

/-- C8: the enumeration has exactly eight reserved kinds, `kEHLandingPad`, `kEHAction`,
`kGnuArgsSize`, `kJumpTable`, `kTailCall`, `kConditionalTailCall`, `kOffset` and `kLabel`, with
the pairwise distinct values 0 to 7 in that order; `kGeneric` has value 8 and is strictly greater
than every reserved kind, so an index is reserved if and only if it is below `kGeneric`. -/
theorem MCAnnotation.Kind.reserved_values :
    MCAnnotation.Kind.reserved =
        [ MCAnnotation.Kind.kEHLandingPad, MCAnnotation.Kind.kEHAction,
          MCAnnotation.Kind.kGnuArgsSize, MCAnnotation.Kind.kJumpTable,
          MCAnnotation.Kind.kTailCall, MCAnnotation.Kind.kConditionalTailCall,
          MCAnnotation.Kind.kOffset, MCAnnotation.Kind.kLabel] ∧
      MCAnnotation.Kind.reserved.length = 8 ∧
      MCAnnotation.Kind.reserved.map MCAnnotation.Kind.toNat = [0, 1, 2, 3, 4, 5, 6, 7] ∧
      ( MCAnnotation.Kind.reserved.map MCAnnotation.Kind.toNat).Nodup ∧
      MCAnnotation.Kind.kGeneric.toNat = 8 ∧
      (∀ K ∈ MCAnnotation.Kind.reserved,
        MCAnnotation.Kind.toNat K < MCAnnotation.Kind.kGeneric.toNat) ∧
      (∀ k : Nat, MCAnnotation.Kind.isReservedIndex k ↔ k < MCAnnotation.Kind.kGeneric.toNat) := by
  refine ⟨by decide, by decide, by decide, by decide, by decide, by decide, ?_⟩
  intro k
  constructor
  · rintro ⟨K, hK, rfl⟩
    revert K
    decide
  · intro hk
    have hk8 : k < 8 := hk
    unfold MCAnnotation.Kind.isReservedIndex
    interval_cases k
    · exact ⟨ MCAnnotation.Kind.kEHLandingPad, by decide, by decide⟩
    · exact ⟨ MCAnnotation.Kind.kEHAction, by decide, by decide⟩
    · exact ⟨ MCAnnotation.Kind.kGnuArgsSize, by decide, by decide⟩
    · exact ⟨ MCAnnotation.Kind.kJumpTable, by decide, by decide⟩
    · exact ⟨ MCAnnotation.Kind.kTailCall, by decide, by decide⟩
    · exact ⟨ MCAnnotation.Kind.kConditionalTailCall, by decide, by decide⟩
    · exact ⟨ MCAnnotation.Kind.kOffset, by decide, by decide⟩
    · exact ⟨ MCAnnotation.Kind.kLabel, by decide, by decide⟩

/-- C10: for every instruction of the form `pre ++ [x] ++ imms`, where `x` is neither an
Immediate nor a sentinel and every operand of `imms` is an Immediate (`imms` may be empty),
`getNumPrimeOperands` returns the total operand count, for every `pre`, including one that
itself contains a sentinel.  The operand count is an `unsigned` value (below `2 ^ 32`). -/
theorem getNumPrimeOperands_stops_at_non_immediate (Inst : MCInst) (pre imms : List MCOperand)
    (x : MCOperand) (hops : Inst.Operands = pre ++ [x] ++ imms)
    (hx1 : x.isImm = false) (hx2 : x.isInst = false)
    (himms : ∀ Op ∈ imms, MCOperand.isImm Op = true)
    (hrep : Inst.getNumOperands < 2 ^ 32) :
    getNumPrimeOperands Inst = some Inst.getNumOperands := by
  by_cases hfit : Inst.getNumOperands ≤ 2 ^ 31
  · rw [getNumPrimeOperands_eq_scanDown Inst hfit]
    exact scanDown_stop Inst pre imms x hops hx1 hx2 himms
  · exact prime_of_large Inst (by omega) hrep

/-- Witness of C10: `[Sentinel, Immediate, Register, Immediate]` gives 4. -/
theorem getNumPrimeOperands_stops_at_non_immediate_witness :
    getNumPrimeOperands (MCInst.mk 0 [MCOperand.Inst none, MCOperand.Imm 7, MCOperand.Reg 1,
      MCOperand.Imm 3]) = some 4 :=
  getNumPrimeOperands_stops_at_non_immediate
    (MCInst.mk 0 [MCOperand.Inst none, MCOperand.Imm 7, MCOperand.Reg 1, MCOperand.Imm 3])
    [MCOperand.Inst none, MCOperand.Imm 7] [MCOperand.Imm 3] (MCOperand.Reg 1)
    (by decide) (by decide) (by decide) (by decide) (by decide)

/-- C11: `getNumPrimeOperands` is a total, finite scan.  For every instruction with `n`
operands (in particular for `n` below `2 ^ 31`) it returns after inspecting at most `n` operands,
each at an index in `[0, n)` and none twice; its result `r` satisfies `r ≤ n`, so the range built
by `primeOperands` ends inside the operand list; and for the empty instruction, where the
`unsigned` expression `n - 1` converts to the `signed` value `-1`, it reads no operand and
returns 0. -/
theorem getNumPrimeOperands_finite_scan (Inst : MCInst) :
    (getNumPrimeOperandsTraced Inst).2 = getNumPrimeOperands Inst ∧
      (getNumPrimeOperandsTraced Inst).1.length ≤ Inst.getNumOperands ∧
      (∀ I ∈ (getNumPrimeOperandsTraced Inst).1, I < Inst.getNumOperands) ∧
      (getNumPrimeOperandsTraced Inst).1.Pairwise (fun a b => b < a) ∧
      (∃ r R, getNumPrimeOperands Inst = some r ∧ r ≤ Inst.getNumOperands ∧
        primeOperands Inst = some R ∧ R.first = 0 ∧ R.last = r ∧
        R.last ≤ Inst.getNumOperands) ∧
      (Inst.getNumOperands = 0 →
        toSigned (unsignedSub Inst.getNumOperands 1) = -1 ∧
        (getNumPrimeOperandsTraced Inst).1 = [] ∧ getNumPrimeOperands Inst = some 0) := by
  have hreads : (getNumPrimeOperandsTraced Inst).1.length ≤ Inst.getNumOperands ∧
      (∀ I ∈ (getNumPrimeOperandsTraced Inst).1, I < Inst.getNumOperands) ∧
      (getNumPrimeOperandsTraced Inst).1.Pairwise (fun a b => b < a) := by
    rcases getNumPrimeOperandsTraced_cases Inst with h | ⟨k, hk, h⟩
    · rw [h]
      exact ⟨Nat.zero_le _, fun I hI => (by cases hI), List.Pairwise.nil⟩
    · rw [h]
      obtain ⟨h1, h2, h3⟩ := scanDownTraced_reads Inst k
      exact ⟨le_trans h1 hk, fun I hI => lt_of_lt_of_le (h2 I hI) hk, h3⟩
  obtain ⟨r, hr, hle⟩ := getNumPrimeOperands_total Inst
  refine ⟨getNumPrimeOperandsTraced_snd Inst, hreads.1, hreads.2.1, hreads.2.2, ?_, ?_⟩
  · refine ⟨r, ⟨0, r⟩, hr, hle, ?_, rfl, rfl, hle⟩
    unfold primeOperands
    rw [hr]
    simp only [beginPlus, hle, Nat.zero_le, if_true]
  · intro h0
    have hlen := hreads.1
    rw [h0] at hlen
    refine ⟨by rw [h0]; exact toSigned_unsignedSub_zero,
      List.eq_nil_of_length_eq_zero (Nat.le_zero.1 hlen), ?_⟩
    rw [hr]
    rw [h0] at hle
    rw [Nat.le_zero.1 hle]

/-- Witness of C11: the empty instruction is scanned without any read and has 0 prime
operands. -/
theorem getNumPrimeOperands_finite_scan_witness :
    (getNumPrimeOperandsTraced (MCInst.mk 0 [])).1 = [] ∧
      getNumPrimeOperands (MCInst.mk 0 []) = some 0 :=
  ((getNumPrimeOperands_finite_scan (MCInst.mk 0 [])).2.2.2.2.2 (by decide)).2

/-- C13: stripping annotations is idempotent on instructions with at most one sentinel.  For
every instruction that contains at most one sentinel operand (and whose operand count is an
`unsigned` value, below `2 ^ 32`), applying `getNumPrimeOperands` to the first
`getNumPrimeOperands(Inst)` operands returns the full length of that list: `primeOperands` of
the prime-operand view is the view itself. -/
theorem getNumPrimeOperands_idempotent (Inst : MCInst) (hone : sentinelCount Inst ≤ 1)
    (hrep : Inst.getNumOperands < 2 ^ 32) :
    ∃ r, getNumPrimeOperands Inst = some r ∧
      (Inst.firstOperands r).getNumOperands = r ∧
      getNumPrimeOperands (Inst.firstOperands r) = some r ∧
      ∃ R, primeOperands (Inst.firstOperands r) = some R ∧
        R.operands (Inst.firstOperands r) = (Inst.firstOperands r).Operands := by
  obtain ⟨r, hr, hle⟩ := getNumPrimeOperands_total Inst
  have hlen : (Inst.firstOperands r).getNumOperands = r := by
    have hle2 : r ≤ Inst.Operands.length := hle
    simp [MCInst.firstOperands, MCInst.getNumOperands, hle2]
  have hprime : getNumPrimeOperands (Inst.firstOperands r) = some r := by
    by_cases hlt : r < Inst.getNumOperands
    · have hfit : Inst.getNumOperands ≤ 2 ^ 31 := by
        by_contra hcon
        have h := prime_of_large Inst (by omega) hrep
        rw [hr] at h
        have := Option.some.inj h
        omega
      have hscan : scanDown Inst Inst.getNumOperands = some r := by
        rw [← getNumPrimeOperands_eq_scanDown Inst hfit]
        exact hr
      obtain ⟨hs, _, _⟩ := scanDown_inv Inst r hlt _ (le_refl _) hscan
      have h := prime_of_no_inst (Inst.firstOperands r) (no_inst_before Inst r hone hs)
      rw [hlen] at h
      exact h
    · have hrn : r = Inst.getNumOperands := by omega
      have hsame : Inst.firstOperands r = Inst := by
        unfold MCInst.firstOperands
        rw [hrn]
        simp [MCInst.getNumOperands]
      rw [hsame]
      exact hr
  refine ⟨r, hr, hlen, hprime, ⟨0, r⟩, ?_, ?_⟩
  · exact primeOperands_of _ r hprime (by rw [hlen])
  · rw [operands_range_zero]
    have : r = (Inst.firstOperands r).Operands.length := hlen.symm
    rw [List.take_of_length_le (by omega)]

/-- Witness of C13: the prime operands of `[Register R1, Sentinel, Immediate]` are
`[Register R1]`, which has 1 prime operand again. -/
theorem getNumPrimeOperands_idempotent_witness :
    getNumPrimeOperands (MCInst.mk 0 [MCOperand.Reg 1, MCOperand.Inst none, MCOperand.Imm 7])
        = some 1 ∧
      getNumPrimeOperands ((MCInst.mk 0 [MCOperand.Reg 1, MCOperand.Inst none,
        MCOperand.Imm 7]).firstOperands 1) = some 1 := by
  obtain ⟨r, hr, _, hp, _⟩ := getNumPrimeOperands_idempotent
    (MCInst.mk 0 [MCOperand.Reg 1, MCOperand.Inst none, MCOperand.Imm 7])
    (by decide) (by decide)
  have h1 : getNumPrimeOperands
      (MCInst.mk 0 [MCOperand.Reg 1, MCOperand.Inst none, MCOperand.Imm 7]) = some 1 := by
    decide
  have hr1 : r = 1 := Option.some.inj (hr.symm.trans h1)
  subst hr1
  exact ⟨hr, hp⟩

end MCPlus
